import Mathlib

/-!
Verification of the report segmenter (`parseFullReport` in the dashboard
component) of the stock-me repository.  JavaScript strings are modelled as
`List Char`; every string method used by the source (`split`, `trim`,
`replace(/\*\*/g, '')`, `replace('* ', '')`, `toLowerCase`, `includes`,
`startsWith`, `indexOf`, `slice`) is translated to an executable function
with the same semantics on the inputs the parser handles, and
`parseFullReport` itself is a line-by-line fold over the split input followed
by the three whole-report extractions, exactly as in the source.
-/

namespace StockMe

/-- A JavaScript string, modelled as its list of characters. -/
abbrev Str := List Char

/-- Conversion from a Lean string literal to the model. -/
def ofString (s : String) : Str := s.data

/-- Whitespace as recognised by `String.prototype.trim` (ASCII fragment). -/
def isWS (c : Char) : Bool := c = ' ' || c = '\t' || c = '\n' || c = '\r'

/-- Drop leading whitespace. -/
def trimLeft : Str → Str
  | [] => []
  | c :: cs => if isWS c then trimLeft cs else c :: cs

/-- JavaScript `s.trim()`: drop leading and trailing whitespace. -/
def trim (s : Str) : Str := (trimLeft (trimLeft s).reverse).reverse

/-- ASCII lower-casing of one character, as `toLowerCase` acts on the
ASCII letters appearing in the parser's patterns. -/
def toLowerChar (c : Char) : Char :=
  if 'A' ≤ c ∧ c ≤ 'Z' then Char.ofNat (c.toNat + 32) else c

/-- JavaScript `s.toLowerCase()` (ASCII fragment). -/
def toLower (s : Str) : Str := s.map toLowerChar

/-- JavaScript `s.startsWith(p)`. -/
def startsWith : Str → Str → Bool
  | _, [] => true
  | [], _ :: _ => false
  | c :: cs, p :: ps => c = p && startsWith cs ps

/-- JavaScript `s.includes(p)`: `p` occurs as a contiguous substring. -/
def includes : Str → Str → Bool
  | [], sub => sub = ([] : Str)
  | c :: cs, sub => startsWith (c :: cs) sub || includes cs sub

/-- JavaScript `s.indexOf(p)`: index of the first occurrence, `none` for -1. -/
def indexOfAux : Str → Str → Option Nat
  | [], sub => if sub = ([] : Str) then some 0 else none
  | c :: cs, sub =>
    if startsWith (c :: cs) sub then some 0
    else (indexOfAux cs sub).map (fun j => j + 1)

/-- JavaScript `s.indexOf(p, i)`: first occurrence at or after position `i`. -/
def indexOfFrom (s sub : Str) (i : Nat) : Option Nat :=
  (indexOfAux (s.drop i) sub).map (fun j => j + i)

/-- JavaScript `s.slice(a, b)` for `0 ≤ a` and `0 ≤ b`. -/
def slice (s : Str) (a b : Nat) : Str := (s.take b).drop a

/-- JavaScript `s.split(sep)` for a single-character separator. -/
def splitOnChar (sep : Char) : Str → List Str
  | [] => [[]]
  | c :: cs =>
    let r := splitOnChar sep cs
    if c = sep then [] :: r
    else
      match r with
      | [] => [[c]]
      | h :: t => (c :: h) :: t

/-- JavaScript `s.replace(/\*\*/g, '')`: remove the occurrences of the bold
marker `**`, scanning left to right without overlap. -/
def stripBold : Str → Str
  | [] => []
  | [c] => [c]
  | c :: d :: rest =>
    if c = '*' ∧ d = '*' then stripBold rest
    else c :: stripBold (d :: rest)

/-- JavaScript `s.replace(pat, '')` with a string pattern: remove the first
occurrence of `pat` only. -/
def removeFirst (pat : Str) : Str → Str
  | [] => []
  | c :: cs =>
    if startsWith (c :: cs) pat then List.drop pat.length (c :: cs)
    else c :: removeFirst pat cs

/-- JavaScript `arr.join(' ')`. -/
def joinSpace : List Str → Str
  | [] => []
  | [x] => x
  | x :: xs => x ++ ' ' :: joinSpace xs

/-- The five analysis categories, in the fixed display order the source
declares them in its `sections` object literal. -/
inductive Category
  | technical
  | fundamental
  | sentiment
  | risks
  | opportunities
  deriving DecidableEq, Repr

/-- The fixed human-readable title of a category. -/
def Category.title : Category → Str
  | .technical => ofString "Technical Analysis"
  | .fundamental => ofString "Fundamental Analysis"
  | .sentiment => ofString "Sentiment Analysis"
  | .risks => ofString "Risks"
  | .opportunities => ofString "Opportunities"

/-- The five content buckets of the source's `sections` object. -/
structure Sections where
  technical : List Str
  fundamental : List Str
  sentiment : List Str
  risks : List Str
  opportunities : List Str
  deriving DecidableEq, Repr

/-- The initial `sections` object: every bucket empty. -/
def initSections : Sections := ⟨[], [], [], [], []⟩

/-- Content bucket of a category. -/
def Sections.get (s : Sections) : Category → List Str
  | .technical => s.technical
  | .fundamental => s.fundamental
  | .sentiment => s.sentiment
  | .risks => s.risks
  | .opportunities => s.opportunities

/-- The source's `sections[c].content.push(v)`. -/
def Sections.app (s : Sections) (c : Category) (v : Str) : Sections :=
  match c with
  | .technical => { s with technical := s.technical ++ [v] }
  | .fundamental => { s with fundamental := s.fundamental ++ [v] }
  | .sentiment => { s with sentiment := s.sentiment ++ [v] }
  | .risks => { s with risks := s.risks ++ [v] }
  | .opportunities => { s with opportunities := s.opportunities ++ [v] }

/-- One output record: the source's `{type, title, content}` value
(`type` is the category tag). -/
structure Section where
  category : Category
  title : Str
  content : List Str
  deriving DecidableEq, Repr

/-- The scan state of the line loop: the buckets plus the
`currentSection` cursor. -/
structure ScanState where
  secs : Sections
  currentSection : Option Category
  deriving DecidableEq, Repr

/-- Initial scan state: empty buckets, no active category. -/
def initState : ScanState := ⟨initSections, none⟩

/-- The body of the source's line loop after the line has been cleaned
(`line.replace(/\*\*/g, '').trim()`): the `if`/`else if` classification
chain. -/
def processCleanLine (st : ScanState) (line : Str) : ScanState :=
  if line = [] then st
  else if includes (toLower line) (ofString "technical analysis") then
    { st with currentSection := some .technical }
  else if includes (toLower line) (ofString "fundamental analysis") then
    { st with currentSection := some .fundamental }
  else if includes (toLower line) (ofString "news sentiment")
       || includes (toLower line) (ofString "social media analysis") then
    { st with currentSection := some .sentiment }
  else if includes (toLower line) (ofString "risks/opportunities") then
    match splitOnChar ':' line with
    | _ :: p1 :: _ =>
      let toks := (splitOnChar ',' p1).map trim
      let r := toks.getD 0 []
      let o := toks.getD 1 []
      let s1 := if r = [] then st.secs else st.secs.app .risks r
      let s2 := if o = [] then s1 else s1.app .opportunities o
      { st with secs := s2 }
    | _ => st
  else if startsWith line (ofString "* ") then
    match st.currentSection with
    | some c =>
      let content := trim (removeFirst (ofString "* ") line)
      if content = [] then st else { st with secs := st.secs.app c content }
    | none => st
  else st

/-- One iteration of the source's `for (let line of lines)` loop:
clean the raw line, then classify it. -/
def processLine (st : ScanState) (rawLine : Str) : ScanState :=
  processCleanLine st (trim (stripBold rawLine))

/-- The source's "Actionable Summary" extraction: on the raw report, find
the marker, find the next blank-line break, and push the joined block to
the sentiment bucket. -/
def addActionableSummary (report : Str) (secs : Sections) : Sections :=
  if includes report (ofString "Actionable Summary") then
    match indexOfAux report (ofString "Actionable Summary") with
    | some summaryStart =>
      match indexOfFrom report (ofString "\n\n") summaryStart with
      | some summaryEnd =>
        let summary := joinSpace
          (((splitOnChar '\n' (slice report summaryStart summaryEnd)).filter
            (fun ln => !(trim ln).isEmpty
              && !includes ln (ofString "Actionable Summary"))).map trim)
        if summary = [] then secs else secs.app .sentiment summary
      | none => secs
    | none => secs
  else secs

/-- The source's dedicated "Risks:" extraction: text between six characters
past the first occurrence of "Risks:" and the next newline. -/
def addRisksParagraph (report : Str) (secs : Sections) : Sections :=
  if includes report (ofString "Risks:") then
    match indexOfAux report (ofString "Risks:") with
    | some risksStart =>
      match indexOfFrom report (ofString "\n") risksStart with
      | some risksEnd =>
        let risks := trim (slice report (risksStart + 6) risksEnd)
        if risks = [] then secs else secs.app .risks risks
      | none => secs
    | none => secs
  else secs

/-- The source's dedicated "Opportunities:" extraction: text between
fourteen characters past the first occurrence of "Opportunities:" and the
next newline. -/
def addOpportunitiesParagraph (report : Str) (secs : Sections) : Sections :=
  if includes report (ofString "Opportunities:") then
    match indexOfAux report (ofString "Opportunities:") with
    | some oppsStart =>
      match indexOfFrom report (ofString "\n") oppsStart with
      | some oppsEnd =>
        let opps := trim (slice report (oppsStart + 14) oppsEnd)
        if opps = [] then secs else secs.app .opportunities opps
      | none => secs
    | none => secs
  else secs

/-- The source's final `Object.values(sections).filter(...)`: the five
sections in declaration order, restricted to non-empty content. -/
def buildSections (s : Sections) : List Section :=
  ([⟨.technical, Category.title .technical, s.technical⟩,
    ⟨.fundamental, Category.title .fundamental, s.fundamental⟩,
    ⟨.sentiment, Category.title .sentiment, s.sentiment⟩,
    ⟨.risks, Category.title .risks, s.risks⟩,
    ⟨.opportunities, Category.title .opportunities, s.opportunities⟩]
      : List Section).filter (fun sec => 0 < sec.content.length)

/-- The segmenter `parseFullReport` of the source: empty-input
short-circuit, line scan, the three whole-report extractions, and the
ordered non-empty filter. -/
def parseFullReport (report : Str) : List Section :=
  if report = [] then []
  else
    let lines := splitOnChar '\n' report
    let st := lines.foldl processLine initState
    let s1 := addActionableSummary report st.secs
    let s2 := addRisksParagraph report s1
    let s3 := addOpportunitiesParagraph report s2
    buildSections s3

/-- Modelled from the spec claim's words for the inline
"Risks/Opportunities" rule: the remainder of the line after the first
colon.  The source instead takes `parts[1]` of `line.split(':')`, the
segment between the first and the second colon. -/
def remainderAfterFirstColon (l : Str) : Str :=
  match indexOfAux l (ofString ":") with
  | some i => l.drop (i + 1)
  | none => []

theorem Sections.get_app (s : Sections) (c c' : Category) (v : Str) :
    (s.app c v).get c' = if c' = c then s.get c' ++ [v] else s.get c' := by
  cases c <;> cases c' <;> simp [Sections.app, Sections.get]

theorem Sections.get_app_mono (s : Sections) (c c' : Category) (v : Str) :
    s.get c <+: (s.app c' v).get c := by
  rw [Sections.get_app]
  split
  · exact ⟨[v], rfl⟩
  · exact List.prefix_rfl

theorem processCleanLine_get_mono (st : ScanState) (l : Str) (c : Category) :
    st.secs.get c <+: (processCleanLine st l).secs.get c := by
  unfold processCleanLine
  repeat' first | split | dsimp only
  all_goals
    first
      | exact List.prefix_rfl
      | exact Sections.get_app_mono ..
      | exact (Sections.get_app_mono ..).trans (Sections.get_app_mono ..)

theorem foldl_processLine_get_mono (lines : List Str) (st : ScanState)
    (c : Category) :
    st.secs.get c <+: (lines.foldl processLine st).secs.get c := by
  induction lines generalizing st with
  | nil => exact List.prefix_rfl
  | cons l ls ih =>
    exact (processCleanLine_get_mono st (trim (stripBold l)) c).trans
      (ih (processLine st l))

theorem addActionableSummary_get_mono (r : Str) (s : Sections) (c : Category) :
    s.get c <+: (addActionableSummary r s).get c := by
  unfold addActionableSummary
  repeat' first | split | dsimp only
  all_goals
    first
      | exact List.prefix_rfl
      | exact Sections.get_app_mono ..

theorem addRisksParagraph_get_mono (r : Str) (s : Sections) (c : Category) :
    s.get c <+: (addRisksParagraph r s).get c := by
  unfold addRisksParagraph
  repeat' first | split | dsimp only
  all_goals
    first
      | exact List.prefix_rfl
      | exact Sections.get_app_mono ..

theorem addOpportunitiesParagraph_get_mono (r : Str) (s : Sections)
    (c : Category) :
    s.get c <+: (addOpportunitiesParagraph r s).get c := by
  unfold addOpportunitiesParagraph
  repeat' first | split | dsimp only
  all_goals
    first
      | exact List.prefix_rfl
      | exact Sections.get_app_mono ..

theorem addActionableSummary_get_ne (r : Str) (s : Sections) (c : Category)
    (h : ¬ c = Category.sentiment) :
    (addActionableSummary r s).get c = s.get c := by
  unfold addActionableSummary
  repeat' first | split | dsimp only
  all_goals first | rfl | rw [Sections.get_app, if_neg h]

theorem addRisksParagraph_get_ne (r : Str) (s : Sections) (c : Category)
    (h : ¬ c = Category.risks) :
    (addRisksParagraph r s).get c = s.get c := by
  unfold addRisksParagraph
  repeat' first | split | dsimp only
  all_goals first | rfl | rw [Sections.get_app, if_neg h]

theorem addOpportunitiesParagraph_get_ne (r : Str) (s : Sections) (c : Category)
    (h : ¬ c = Category.opportunities) :
    (addOpportunitiesParagraph r s).get c = s.get c := by
  unfold addOpportunitiesParagraph
  repeat' first | split | dsimp only
  all_goals first | rfl | rw [Sections.get_app, if_neg h]

theorem buildSections_mem (s : Sections) (c : Category) (h : s.get c ≠ []) :
    ∃ sec ∈ buildSections s, sec.category = c ∧ sec.content = s.get c := by
  cases c
  case technical =>
    refine ⟨⟨.technical, Category.title .technical, s.technical⟩, ?_, rfl, rfl⟩
    exact List.mem_filter.mpr
      ⟨by simp [buildSections], by simpa [List.length_pos, Sections.get] using h⟩
  case fundamental =>
    refine ⟨⟨.fundamental, Category.title .fundamental, s.fundamental⟩, ?_, rfl, rfl⟩
    exact List.mem_filter.mpr
      ⟨by simp [buildSections], by simpa [List.length_pos, Sections.get] using h⟩
  case sentiment =>
    refine ⟨⟨.sentiment, Category.title .sentiment, s.sentiment⟩, ?_, rfl, rfl⟩
    exact List.mem_filter.mpr
      ⟨by simp [buildSections], by simpa [List.length_pos, Sections.get] using h⟩
  case risks =>
    refine ⟨⟨.risks, Category.title .risks, s.risks⟩, ?_, rfl, rfl⟩
    exact List.mem_filter.mpr
      ⟨by simp [buildSections], by simpa [List.length_pos, Sections.get] using h⟩
  case opportunities =>
    refine ⟨⟨.opportunities, Category.title .opportunities, s.opportunities⟩, ?_, rfl, rfl⟩
    exact List.mem_filter.mpr
      ⟨by simp [buildSections], by simpa [List.length_pos, Sections.get] using h⟩

theorem buildSections_cats_sublist (s : Sections) :
    ((buildSections s).map Section.category).Sublist
      [Category.technical, Category.fundamental, Category.sentiment,
       Category.risks, Category.opportunities] :=
  (List.Sublist.map Section.category (List.filter_sublist _))

theorem buildSections_content_ne_nil (s : Sections) :
    ∀ sec ∈ buildSections s, sec.content ≠ [] := by
  intro sec hsec
  have h := (List.mem_filter.mp hsec).2
  simpa [List.length_pos] using h

theorem indexOfAux_single_none (s : Str) (a : Char) (h : ∀ c ∈ s, c ≠ a) :
    indexOfAux s [a] = none := by
  induction s with
  | nil => rfl
  | cons c cs ih =>
    simp [indexOfAux, startsWith, h c (List.mem_cons_self c cs),
      ih (fun x hx => h x (List.mem_cons_of_mem c hx))]

theorem indexOfAux_includes (s sub : Str) (i : Nat)
    (h : indexOfAux s sub = some i) : includes s sub = true := by
  induction s generalizing i with
  | nil =>
    unfold indexOfAux at h
    unfold includes
    split at h
    · simp_all
    · exact absurd h (by simp)
  | cons c cs ih =>
    unfold indexOfAux at h
    unfold includes
    split at h
    · simp_all
    · cases hrec : indexOfAux cs sub with
      | none => rw [hrec] at h; simp at h
      | some j => simp [ih j hrec]

theorem startsWith_nil (l : Str) : startsWith l [] = true := by
  cases l <;> rfl

theorem startsWith_append (p rest : Str) : startsWith (p ++ rest) p = true := by
  induction p with
  | nil => exact startsWith_nil rest
  | cons c p ih => simp [startsWith, ih]

theorem includes_of_startsWith (s p : Str) (h : startsWith s p = true) :
    includes s p = true := by
  cases s with
  | nil =>
    cases p with
    | nil => rfl
    | cons d ps => simp [startsWith] at h
  | cons c cs => simp [includes, h]

theorem splitOnChar_eq_single (sep : Char) (l : Str) (h : ∀ c ∈ l, c ≠ sep) :
    splitOnChar sep l = [l] := by
  induction l with
  | nil => rfl
  | cons c cs ih =>
    simp [splitOnChar, h c (List.mem_cons_self c cs),
      ih (fun x hx => h x (List.mem_cons_of_mem c hx))]

theorem splitOnChar_append_cons (sep : Char) (a b : Str)
    (h : ∀ c ∈ a, c ≠ sep) :
    splitOnChar sep (a ++ sep :: b) = a :: splitOnChar sep b := by
  induction a with
  | nil => simp [splitOnChar]
  | cons c cs ih =>
    have hrec := ih (fun x hx => h x (List.mem_cons_of_mem c hx))
    simp [splitOnChar, h c (List.mem_cons_self c cs), hrec]

theorem stripBold_eq_self (l : Str) (h : ∀ c ∈ l, c ≠ '*') :
    stripBold l = l := by
  induction l with
  | nil => rfl
  | cons c cs ih =>
    cases cs with
    | nil => rfl
    | cons d rest =>
      unfold stripBold
      rw [if_neg (fun hand => h c (List.mem_cons_self c (d :: rest)) hand.1)]
      rw [ih (fun x hx => h x (List.mem_cons_of_mem c hx))]

theorem trimLeft_length_le (l : Str) : (trimLeft l).length ≤ l.length := by
  induction l with
  | nil => simp [trimLeft]
  | cons c cs ih =>
    unfold trimLeft
    split
    · exact le_trans ih (by simp)
    · simp

theorem trimLeft_cons_not_ws (c : Char) (cs : Str) (h : isWS c = false) :
    trimLeft (c :: cs) = c :: cs := by
  simp [trimLeft, h]

theorem trimLeft_fix_head (l : Str) (hne : l ≠ []) (h : trimLeft l = l) :
    ∃ c t, l = c :: t ∧ isWS c = false := by
  cases l with
  | nil => exact absurd rfl hne
  | cons c t =>
    refine ⟨c, t, rfl, ?_⟩
    by_contra hws
    have hws' : isWS c = true := by simpa using hws
    rw [trimLeft, if_pos hws'] at h
    have := trimLeft_length_le t
    rw [h] at this
    simp at this

theorem trim_eq_self (l : Str) (h1 : trimLeft l = l)
    (h2 : trimLeft l.reverse = l.reverse) : trim l = l := by
  unfold trim
  rw [h1, h2, List.reverse_reverse]

theorem trim_space_cons (l : Str) (h1 : trimLeft l = l)
    (h2 : trimLeft l.reverse = l.reverse) : trim (' ' :: l) = l := by
  unfold trim
  rw [show trimLeft (' ' :: l) = trimLeft l from by simp [trimLeft, isWS]]
  rw [h1, h2, List.reverse_reverse]

theorem trim_nil : trim [] = [] := rfl

theorem getD_map_trim (xs : List Str) (i : Nat) :
    (xs.map trim).getD i [] = trim (xs.getD i []) := by
  induction xs generalizing i with
  | nil => simp [List.getD, trim_nil]
  | cons x xs ih =>
    cases i with
    | zero => simp [List.getD]
    | succ n => simpa [List.getD] using ih n

theorem indexOfAux_single_append (a : Str) (ch : Char) (b : Str)
    (h : ∀ c ∈ a, c ≠ ch) :
    indexOfAux (a ++ ch :: b) [ch] = some a.length := by
  induction a with
  | nil => simp [indexOfAux, startsWith, startsWith_nil]
  | cons c cs ih =>
    have hrec := ih (fun x hx => h x (List.mem_cons_of_mem c hx))
    simp [indexOfAux, startsWith, h c (List.mem_cons_self c cs), hrec]

theorem processCleanLine_riskOpp (st : ScanState) (line : Str)
    (h1 : includes (toLower line) (ofString "technical analysis") = false)
    (h2 : includes (toLower line) (ofString "fundamental analysis") = false)
    (h3 : includes (toLower line) (ofString "news sentiment") = false)
    (h4 : includes (toLower line) (ofString "social media analysis") = false)
    (h5 : includes (toLower line) (ofString "risks/opportunities") = true) :
    (processCleanLine st line).currentSection = st.currentSection
    ∧ (processCleanLine st line).secs.risks
      = st.secs.risks
        ++ (if trim ((splitOnChar ',' ((splitOnChar ':' line).getD 1 [])).getD 0 []) = []
            then []
            else [trim ((splitOnChar ',' ((splitOnChar ':' line).getD 1 [])).getD 0 [])])
    ∧ (processCleanLine st line).secs.opportunities
      = st.secs.opportunities
        ++ (if trim ((splitOnChar ',' ((splitOnChar ':' line).getD 1 [])).getD 1 []) = []
            then []
            else [trim ((splitOnChar ',' ((splitOnChar ':' line).getD 1 [])).getD 1 [])])
    ∧ (processCleanLine st line).secs.technical = st.secs.technical
    ∧ (processCleanLine st line).secs.fundamental = st.secs.fundamental
    ∧ (processCleanLine st line).secs.sentiment = st.secs.sentiment := by
  have hl : line ≠ [] := by
    intro h
    rw [h] at h5
    exact absurd h5 (by decide)
  unfold processCleanLine
  rw [if_neg hl, h1, h2, h3, h4, h5]
  simp only [Bool.false_eq_true, if_false, Bool.or_self, if_true]
  cases hparts : splitOnChar ':' line with
  | nil => simp [List.getD, trim_nil, splitOnChar]
  | cons a rest =>
    cases rest with
    | nil => simp [List.getD, trim_nil, splitOnChar]
    | cons p1 tl =>
      dsimp only
      rw [getD_map_trim, getD_map_trim]
      simp only [List.getD_cons_zero, List.getD_cons_succ]
      refine ⟨?_, ?_, ?_, ?_, ?_, ?_⟩ <;>
        first
          | trivial
          | (split <;> split <;> simp_all [Sections.app])

theorem processCleanLine_bullet (st : ScanState) (line : Str) (c : Category)
    (hcur : st.currentSection = some c)
    (h1 : includes (toLower line) (ofString "technical analysis") = false)
    (h2 : includes (toLower line) (ofString "fundamental analysis") = false)
    (h3 : includes (toLower line) (ofString "news sentiment") = false)
    (h4 : includes (toLower line) (ofString "social media analysis") = false)
    (h5 : includes (toLower line) (ofString "risks/opportunities") = false)
    (hb : startsWith line (ofString "* ") = true)
    (hne : trim (removeFirst (ofString "* ") line) ≠ []) :
    processCleanLine st line
      = { st with
          secs := st.secs.app c (trim (removeFirst (ofString "* ") line)) } := by
  have hl : line ≠ [] := by
    intro h
    rw [h] at hb
    exact absurd hb (by decide)
  unfold processCleanLine
  rw [if_neg hl, h1, h2, h3, h4, h5, hb, hcur]
  simp [hne]

/-- Claim C5: `segment` applied to the empty string returns the empty
sequence. -/
theorem segment_empty : parseFullReport (ofString "") = [] := rfl

/-- Claim C6: `segment` is total over all string inputs: for every string
it returns a (possibly empty) list of sections; the embedding is a total
computable function, so no input can raise an error. -/
theorem segment_total (report : Str) :
    ∃ out : List Section, parseFullReport report = out := ⟨_, rfl⟩

theorem segment_total_witness :
    ∃ out : List Section, parseFullReport (ofString "arbitrary text") = out :=
  segment_total (ofString "arbitrary text")

/-- Claim C7: `segment` is deterministic: the same input string always
yields the same output sequence; the embedding is a pure function of its
argument, with no hidden state between calls. -/
theorem segment_deterministic (report : Str) :
    parseFullReport report = parseFullReport report := rfl

/-- Claim C4: the output is always the fixed-order list technical,
fundamental, sentiment, risks, opportunities restricted to categories
with non-empty content, and a section appears only if its content is
non-empty. -/
theorem output_order_and_nonempty (report : Str) :
    ((parseFullReport report).map Section.category).Sublist
      [Category.technical, Category.fundamental, Category.sentiment,
       Category.risks, Category.opportunities]
    ∧ (∀ s ∈ parseFullReport report, s.content ≠ [])
    ∧ ∃ secs : Sections, parseFullReport report = buildSections secs := by
  have hb : ∃ secs : Sections, parseFullReport report = buildSections secs := by
    by_cases h : report = []
    · exact ⟨initSections, by rw [h]; decide⟩
    · unfold parseFullReport
      rw [if_neg h]
      exact ⟨_, rfl⟩
  obtain ⟨secs, hs⟩ := hb
  refine ⟨?_, ?_, ⟨secs, hs⟩⟩
  · rw [hs]; exact buildSections_cats_sublist secs
  · rw [hs]; exact buildSections_content_ne_nil secs

theorem output_order_and_nonempty_witness :
    ((parseFullReport (ofString "Technical Analysis\n* Strong momentum")).map
      Section.category).Sublist
      [Category.technical, Category.fundamental, Category.sentiment,
       Category.risks, Category.opportunities] :=
  (output_order_and_nonempty (ofString "Technical Analysis\n* Strong momentum")).1

/-- Claim C8: bold-markup stripping is exact: a line is classified through
its bold-stripped, trimmed form only, so two raw lines with the same
cleaned form are classified identically; in particular
`"**Technical Analysis**"` is classified identically to
`"Technical Analysis"`. -/
theorem bold_stripping_classification (st : ScanState) (l1 l2 : Str)
    (h : trim (stripBold l1) = trim (stripBold l2)) :
    processLine st l1 = processLine st l2
    ∧ processLine st (ofString "**Technical Analysis**")
      = processLine st (ofString "Technical Analysis") := by
  constructor
  · unfold processLine; rw [h]
  · unfold processLine
    have h2 : trim (stripBold (ofString "**Technical Analysis**"))
        = trim (stripBold (ofString "Technical Analysis")) := by decide
    rw [h2]

theorem bold_stripping_classification_witness :
    trim (stripBold (ofString "**Fundamental Analysis**"))
      = trim (stripBold (ofString "Fundamental Analysis"))
    ∧ processLine initState (ofString "**Fundamental Analysis**")
      = processLine initState (ofString "Fundamental Analysis") :=
  ⟨by decide, (bold_stripping_classification initState
      (ofString "**Fundamental Analysis**")
      (ofString "Fundamental Analysis") (by decide)).1⟩

/-- Claim C10: each whole-report extraction requires its terminator: if
"Risks:" (resp. "Opportunities:") occurs first at position `i` (resp. `j`)
but no newline occurs at or after that position, the extraction appends
nothing; if "Actionable Summary" occurs first at `k` but no double newline
follows, the sentiment extraction appends nothing.  In each case the
buckets are returned unchanged. -/
theorem extraction_requires_terminator (report : Str) (secs : Sections)
    (i j k : Nat) :
    (indexOfAux report (ofString "Risks:") = some i →
      (∀ c ∈ report.drop i, c ≠ '\n') →
      addRisksParagraph report secs = secs)
    ∧ (indexOfAux report (ofString "Opportunities:") = some j →
      (∀ c ∈ report.drop j, c ≠ '\n') →
      addOpportunitiesParagraph report secs = secs)
    ∧ (indexOfAux report (ofString "Actionable Summary") = some k →
      indexOfFrom report (ofString "\n\n") k = none →
      addActionableSummary report secs = secs) := by
  have hnl : ofString "\n" = ['\n'] := rfl
  refine ⟨?_, ?_, ?_⟩
  · intro hi hno
    have hfrom : indexOfFrom report (ofString "\n") i = none := by
      unfold indexOfFrom
      rw [hnl, indexOfAux_single_none _ _ hno]
      rfl
    unfold addRisksParagraph
    split
    · rw [hi]
      dsimp only
      rw [hfrom]
    · rfl
  · intro hj hno
    have hfrom : indexOfFrom report (ofString "\n") j = none := by
      unfold indexOfFrom
      rw [hnl, indexOfAux_single_none _ _ hno]
      rfl
    unfold addOpportunitiesParagraph
    split
    · rw [hj]
      dsimp only
      rw [hfrom]
    · rfl
  · intro hk hfrom
    unfold addActionableSummary
    split
    · rw [hk]
      dsimp only
      rw [hfrom]
    · rfl

theorem extraction_requires_terminator_witness :
    addRisksParagraph (ofString "Actionable Summary\nRisks: a Opportunities: b")
      initSections = initSections
    ∧ addOpportunitiesParagraph
        (ofString "Actionable Summary\nRisks: a Opportunities: b")
        initSections = initSections
    ∧ addActionableSummary
        (ofString "Actionable Summary\nRisks: a Opportunities: b")
        initSections = initSections :=
  ⟨(extraction_requires_terminator
      (ofString "Actionable Summary\nRisks: a Opportunities: b")
      initSections 19 28 0).1 (by decide) (by decide),
   (extraction_requires_terminator
      (ofString "Actionable Summary\nRisks: a Opportunities: b")
      initSections 19 28 0).2.1 (by decide) (by decide),
   (extraction_requires_terminator
      (ofString "Actionable Summary\nRisks: a Opportunities: b")
      initSections 19 28 0).2.2 (by decide) (by decide)⟩

/-- Claim C1 (amended): for a scanned line whose cleaned form contains
"risks/opportunities" case-insensitively and matches none of the
higher-precedence header rules, the parser splits the segment of the line
between the first and the second colon (the whole remainder after the
first colon when there is no second colon; nothing when the line has no
colon) on commas, appends the first trimmed token to risks content if
non-empty and the second trimmed token to opportunities content if
non-empty, and leaves the current category cursor and all other buckets
unchanged; and the end-to-end scenario
"Risks/Opportunities: supply chain disruption, new market expansion"
returns exactly a risks section ["supply chain disruption"] followed by an
opportunities section ["new market expansion"]. -/
theorem inline_risk_opportunity_rule (st : ScanState) (l : Str)
    (h1 : includes (toLower (trim (stripBold l))) (ofString "technical analysis") = false)
    (h2 : includes (toLower (trim (stripBold l))) (ofString "fundamental analysis") = false)
    (h3 : includes (toLower (trim (stripBold l))) (ofString "news sentiment") = false)
    (h4 : includes (toLower (trim (stripBold l))) (ofString "social media analysis") = false)
    (h5 : includes (toLower (trim (stripBold l))) (ofString "risks/opportunities") = true) :
    ((processLine st l).currentSection = st.currentSection
    ∧ (processLine st l).secs.risks
      = st.secs.risks
        ++ (if trim ((splitOnChar ','
              ((splitOnChar ':' (trim (stripBold l))).getD 1 [])).getD 0 []) = []
            then []
            else [trim ((splitOnChar ','
              ((splitOnChar ':' (trim (stripBold l))).getD 1 [])).getD 0 [])])
    ∧ (processLine st l).secs.opportunities
      = st.secs.opportunities
        ++ (if trim ((splitOnChar ','
              ((splitOnChar ':' (trim (stripBold l))).getD 1 [])).getD 1 []) = []
            then []
            else [trim ((splitOnChar ','
              ((splitOnChar ':' (trim (stripBold l))).getD 1 [])).getD 1 [])])
    ∧ (processLine st l).secs.technical = st.secs.technical
    ∧ (processLine st l).secs.fundamental = st.secs.fundamental
    ∧ (processLine st l).secs.sentiment = st.secs.sentiment)
    ∧ parseFullReport
        (ofString "Risks/Opportunities: supply chain disruption, new market expansion")
      = [⟨Category.risks, Category.title Category.risks,
          [ofString "supply chain disruption"]⟩,
         ⟨Category.opportunities, Category.title Category.opportunities,
          [ofString "new market expansion"]⟩] := by
  constructor
  · exact processCleanLine_riskOpp st (trim (stripBold l)) h1 h2 h3 h4 h5
  · decide

theorem inline_risk_opportunity_rule_witness :
    (processLine initState (ofString "Risks/Opportunities: a, b")).currentSection
      = initState.currentSection :=
  ((inline_risk_opportunity_rule initState (ofString "Risks/Opportunities: a, b")
    (by decide) (by decide) (by decide) (by decide) (by decide)).1).1

/-- Claim C2 (amended): for every scanned line whose bold-stripped,
trimmed form starts with the bullet marker "* " and matches none of the
higher-precedence header or risks/opportunities rules, when a category is
active at the time the line is scanned and the marker-stripped, trimmed
text is non-empty, that text is an exact member of that category's content
list in the output. -/
theorem bullet_membership (report : Str) (pre post : List Str) (l : Str)
    (c : Category)
    (hsplit : splitOnChar '\n' report = pre ++ l :: post)
    (hcur : (pre.foldl processLine initState).currentSection = some c)
    (h1 : includes (toLower (trim (stripBold l))) (ofString "technical analysis") = false)
    (h2 : includes (toLower (trim (stripBold l))) (ofString "fundamental analysis") = false)
    (h3 : includes (toLower (trim (stripBold l))) (ofString "news sentiment") = false)
    (h4 : includes (toLower (trim (stripBold l))) (ofString "social media analysis") = false)
    (h5 : includes (toLower (trim (stripBold l))) (ofString "risks/opportunities") = false)
    (hb : startsWith (trim (stripBold l)) (ofString "* ") = true)
    (hne : trim (removeFirst (ofString "* ") (trim (stripBold l))) ≠ []) :
    ∃ s ∈ parseFullReport report, s.category = c
      ∧ trim (removeFirst (ofString "* ") (trim (stripBold l))) ∈ s.content := by
  have hrep : report ≠ [] := by
    intro h
    subst h
    have h0 : pre ++ l :: post = [[]] := by rw [← hsplit]; rfl
    cases pre with
    | nil =>
      simp only [List.nil_append, List.cons.injEq] at h0
      rw [h0.1] at hb
      exact absurd hb (by decide)
    | cons p ps =>
      simp only [List.cons_append, List.cons.injEq] at h0
      exact absurd h0.2 (by simp)
  have hstep : (processLine (pre.foldl processLine initState) l).secs.get c
      = ((pre.foldl processLine initState).secs.get c)
        ++ [trim (removeFirst (ofString "* ") (trim (stripBold l)))] := by
    show (processCleanLine (pre.foldl processLine initState)
      (trim (stripBold l))).secs.get c = _
    rw [processCleanLine_bullet (pre.foldl processLine initState)
      (trim (stripBold l)) c hcur h1 h2 h3 h4 h5 hb hne]
    rw [Sections.get_app]
    simp
  have hmem : trim (removeFirst (ofString "* ") (trim (stripBold l)))
      ∈ ((splitOnChar '\n' report).foldl processLine initState).secs.get c := by
    rw [hsplit, List.foldl_append, List.foldl_cons]
    refine (foldl_processLine_get_mono post
      (processLine (pre.foldl processLine initState) l) c).subset ?_
    rw [hstep]
    simp
  have hmem2 : trim (removeFirst (ofString "* ") (trim (stripBold l)))
      ∈ (addOpportunitiesParagraph report (addRisksParagraph report
          (addActionableSummary report
            ((splitOnChar '\n' report).foldl processLine initState).secs))).get c :=
    (addOpportunitiesParagraph_get_mono ..).subset
      ((addRisksParagraph_get_mono ..).subset
        ((addActionableSummary_get_mono ..).subset hmem))
  have hne2 : (addOpportunitiesParagraph report (addRisksParagraph report
      (addActionableSummary report
        ((splitOnChar '\n' report).foldl processLine initState).secs))).get c ≠ [] := by
    intro h
    rw [h] at hmem2
    exact absurd hmem2 (by simp)
  obtain ⟨sec, hsec, hcat, hcont⟩ := buildSections_mem _ c hne2
  refine ⟨sec, ?_, hcat, ?_⟩
  · unfold parseFullReport
    rw [if_neg hrep]
    exact hsec
  · rw [hcont]
    exact hmem2

theorem bullet_membership_witness :
    ∃ s ∈ parseFullReport (ofString "Fundamental Analysis\n* strong earnings"),
      s.category = Category.fundamental
      ∧ trim (removeFirst (ofString "* ")
          (trim (stripBold (ofString "* strong earnings")))) ∈ s.content :=
  bullet_membership (ofString "Fundamental Analysis\n* strong earnings")
    [ofString "Fundamental Analysis"] [] (ofString "* strong earnings")
    Category.fundamental (by decide) (by decide) (by decide) (by decide)
    (by decide) (by decide) (by decide) (by decide) (by decide)

/-- Counterexample to claim C1: the source splits `parts[1]` of
`line.split(':')` — the segment between the first and second colon — not
the whole remainder after the first colon.  On a line with a second colon
the claim predicts risks entry "alpha: beta", but the code produces
"alpha" and no opportunities entry at all. -/
theorem inline_risk_split_counterexample :
    trim ((splitOnChar ','
        (remainderAfterFirstColon
          (ofString "Risks/Opportunities: alpha: beta, gamma"))).getD 0 [])
      = ofString "alpha: beta"
    ∧ parseFullReport (ofString "Risks/Opportunities: alpha: beta, gamma")
      = [⟨Category.risks, Category.title Category.risks, [ofString "alpha"]⟩]
    ∧ ¬ ∃ s ∈ parseFullReport (ofString "Risks/Opportunities: alpha: beta, gamma"),
        s.category = Category.risks ∧ ofString "alpha: beta" ∈ s.content := by
  decide

/-- Counterexample to claim C2: a bullet line whose text matches a
higher-precedence header rule is consumed as a header, so its text never
reaches the active category's content.  Here "Fundamental Analysis"
activates `fundamental`, the next line is a bullet under that active
category, yet the output is empty. -/
theorem bullet_membership_counterexample :
    (processLine initState (ofString "Fundamental Analysis")).currentSection
      = some Category.fundamental
    ∧ startsWith (trim (stripBold (ofString "* technical analysis improved")))
        (ofString "* ") = true
    ∧ parseFullReport
        (ofString "Fundamental Analysis\n* technical analysis improved") = []
    ∧ ¬ ∃ s ∈ parseFullReport
        (ofString "Fundamental Analysis\n* technical analysis improved"),
        ofString "technical analysis improved" ∈ s.content := by
  decide

/-- Claim C3: for every narrative in which "Actionable Summary" occurs
(first occurrence at position i) and a double newline occurs at or after
i (first such at position e), the text between i and e is split into
lines, every line that is blank or contains "Actionable Summary" is
dropped, the remaining lines are trimmed and joined with single spaces,
and the non-empty joined result is one content entry of the sentiment
section of the output; in particular, for
"Actionable Summary\nBuy on dips given strong fundamentals.\n\nOther text"
the sentiment section's content includes the single string
"Buy on dips given strong fundamentals.". -/
theorem actionable_summary_extraction (report : Str) (i e : Nat)
    (hi : indexOfAux report (ofString "Actionable Summary") = some i)
    (he : indexOfFrom report (ofString "\n\n") i = some e)
    (hne : joinSpace (((splitOnChar '\n' (slice report i e)).filter
        (fun ln => !(trim ln).isEmpty
          && !includes ln (ofString "Actionable Summary"))).map trim) ≠ []) :
    (∃ s ∈ parseFullReport report, s.category = Category.sentiment
      ∧ joinSpace (((splitOnChar '\n' (slice report i e)).filter
          (fun ln => !(trim ln).isEmpty
            && !includes ln (ofString "Actionable Summary"))).map trim) ∈ s.content)
    ∧ ∃ s ∈ parseFullReport
        (ofString "Actionable Summary\nBuy on dips given strong fundamentals.\n\nOther text"),
        s.category = Category.sentiment
        ∧ ofString "Buy on dips given strong fundamentals." ∈ s.content := by
  constructor
  · have hrep : report ≠ [] := by
      intro h
      rw [h] at hi
      rw [show indexOfAux ([] : Str) (ofString "Actionable Summary") = none
        from rfl] at hi
      exact Option.noConfusion hi
    have hinc := indexOfAux_includes report (ofString "Actionable Summary") i hi
    have hadd : addActionableSummary report
        ((splitOnChar '\n' report).foldl processLine initState).secs
        = (((splitOnChar '\n' report).foldl processLine initState).secs).app
            Category.sentiment
            (joinSpace (((splitOnChar '\n' (slice report i e)).filter
              (fun ln => !(trim ln).isEmpty
                && !includes ln (ofString "Actionable Summary"))).map trim)) := by
      unfold addActionableSummary
      split
      · rw [hi]
        dsimp only
        rw [he]
        dsimp only
        rw [if_neg hne]
      · rename_i h'
        exact absurd hinc h'
    have h1 : joinSpace (((splitOnChar '\n' (slice report i e)).filter
        (fun ln => !(trim ln).isEmpty
          && !includes ln (ofString "Actionable Summary"))).map trim)
        ∈ (addActionableSummary report
            ((splitOnChar '\n' report).foldl processLine initState).secs).get
          Category.sentiment := by
      rw [hadd, Sections.get_app]
      simp
    have h3 : joinSpace (((splitOnChar '\n' (slice report i e)).filter
        (fun ln => !(trim ln).isEmpty
          && !includes ln (ofString "Actionable Summary"))).map trim)
        ∈ (addRisksParagraph report (addActionableSummary report
            ((splitOnChar '\n' report).foldl processLine initState).secs)).get
          Category.sentiment := by
      rw [addRisksParagraph_get_ne _ _ _ (by decide)]
      exact h1
    have h4 : joinSpace (((splitOnChar '\n' (slice report i e)).filter
        (fun ln => !(trim ln).isEmpty
          && !includes ln (ofString "Actionable Summary"))).map trim)
        ∈ (addOpportunitiesParagraph report (addRisksParagraph report
            (addActionableSummary report
              ((splitOnChar '\n' report).foldl processLine initState).secs))).get
          Category.sentiment := by
      rw [addOpportunitiesParagraph_get_ne _ _ _ (by decide)]
      exact h3
    have hne2 : (addOpportunitiesParagraph report (addRisksParagraph report
        (addActionableSummary report
          ((splitOnChar '\n' report).foldl processLine initState).secs))).get
        Category.sentiment ≠ [] := by
      intro h
      rw [h] at h4
      exact absurd h4 (by simp)
    obtain ⟨sec, hsec, hcat, hcont⟩ := buildSections_mem _ _ hne2
    refine ⟨sec, ?_, hcat, ?_⟩
    · unfold parseFullReport
      rw [if_neg hrep]
      exact hsec
    · rw [hcont]
      exact h4
  · decide

theorem actionable_summary_extraction_witness :
    ∃ s ∈ parseFullReport
      (ofString "Actionable Summary\nBuy on dips given strong fundamentals.\n\nOther text"),
      s.category = Category.sentiment
      ∧ ofString "Buy on dips given strong fundamentals." ∈ s.content :=
  (actionable_summary_extraction
    (ofString "Actionable Summary\nBuy on dips given strong fundamentals.\n\nOther text")
    0 57 (by decide) (by decide) (by decide)).2

/-- Counterexample to claim C9: the dedicated "Opportunities:" extraction
fires on the first occurrence of "Opportunities:" in the whole narrative,
not on the occurrence inside the "Risks/Opportunities:" line.  With an
earlier standalone "Opportunities:" paragraph the claimed overlapping
entry "X, Y" never appears. -/
theorem opportunities_overlap_counterexample :
    includes (ofString "Opportunities: early\nRisks/Opportunities: X, Y\n")
        (ofString "Risks/Opportunities: X, Y\n") = true
    ∧ parseFullReport (ofString "Opportunities: early\nRisks/Opportunities: X, Y\n")
      = [⟨Category.risks, Category.title Category.risks, [ofString "X"]⟩,
         ⟨Category.opportunities, Category.title Category.opportunities,
          [ofString "Y", ofString "early"]⟩]
    ∧ ¬ ∃ s ∈ parseFullReport
        (ofString "Opportunities: early\nRisks/Opportunities: X, Y\n"),
        s.category = Category.opportunities ∧ ofString "X, Y" ∈ s.content := by
  decide

theorem indexOfAux_cons_shift (c : Char) (cs : Str) (p : Char) (ps : Str)
    (h : ¬ c = p) :
    indexOfAux (c :: cs) (p :: ps)
      = (indexOfAux cs (p :: ps)).map (fun j => j + 1) := by
  rw [show indexOfAux (c :: cs) (p :: ps)
      = if startsWith (c :: cs) (p :: ps) = true then some 0
        else (indexOfAux cs (p :: ps)).map (fun j => j + 1) from rfl]
  rw [if_neg (show ¬ startsWith (c :: cs) (p :: ps) = true from by
    simp [startsWith, h])]

theorem indexOfAux_startsWith (s p : Str) (hp : p ≠ [])
    (h : startsWith s p = true) : indexOfAux s p = some 0 := by
  cases s with
  | nil =>
    cases p with
    | nil => exact absurd rfl hp
    | cons d ds => simp [startsWith] at h
  | cons c cs =>
    unfold indexOfAux
    rw [if_pos h]

/-- Claim C9 (amended): the standalone "Opportunities:" extraction fires
on the first occurrence of "Opportunities:" in the whole narrative.  When
the narrative begins with the line "Risks/Opportunities: X, Y" followed by
a newline — so the occurrence inside that line is the first one — with X
and Y trimmed, non-empty, free of colon, comma, newline and bold-marker
characters, and the line matching no header rule, the opportunities
content receives both the trimmed second comma token Y from the inline
rule and the entire trimmed text "X, Y" between that occurrence of
"Opportunities:" and the next newline as a second, overlapping entry. -/
theorem opportunities_overlap (X Y suf : Str)
    (hX1 : trimLeft X = X) (hX2 : trimLeft X.reverse = X.reverse)
    (hY1 : trimLeft Y = Y) (hY2 : trimLeft Y.reverse = Y.reverse)
    (hXne : X ≠ []) (hYne : Y ≠ [])
    (hXch : ∀ c ∈ X, c ≠ ':' ∧ c ≠ ',' ∧ c ≠ '\n' ∧ c ≠ '*')
    (hYch : ∀ c ∈ Y, c ≠ ':' ∧ c ≠ ',' ∧ c ≠ '\n' ∧ c ≠ '*')
    (h1 : includes (toLower (ofString "Risks/Opportunities: " ++ (X ++ (ofString ", " ++ Y))))
        (ofString "technical analysis") = false)
    (h2 : includes (toLower (ofString "Risks/Opportunities: " ++ (X ++ (ofString ", " ++ Y))))
        (ofString "fundamental analysis") = false)
    (h3 : includes (toLower (ofString "Risks/Opportunities: " ++ (X ++ (ofString ", " ++ Y))))
        (ofString "news sentiment") = false)
    (h4 : includes (toLower (ofString "Risks/Opportunities: " ++ (X ++ (ofString ", " ++ Y))))
        (ofString "social media analysis") = false) :
    ∃ s ∈ parseFullReport
        (ofString "Risks/Opportunities: " ++ (X ++ (ofString ", " ++ (Y ++ (ofString "\n" ++ suf))))),
      s.category = Category.opportunities
      ∧ Y ∈ s.content
      ∧ (X ++ (ofString ", " ++ Y)) ∈ s.content := by
  obtain ⟨cx, tx, hXc, hcx⟩ := trimLeft_fix_head X hXne hX1
  obtain ⟨cy, ty, hYr, hcy⟩ :=
    trimLeft_fix_head Y.reverse (by simpa using hYne) hY2
  have hPnl : ∀ c ∈ ofString "Risks/Opportunities: ", c ≠ '\n' := by decide
  have hMnl : ∀ c ∈ ofString ", ", c ≠ '\n' := by decide
  have hLnl : ∀ c ∈ ofString "Risks/Opportunities: " ++ (X ++ (ofString ", " ++ Y)),
      c ≠ '\n' := by
    intro c hc
    rcases List.mem_append.mp hc with h | h
    · exact hPnl c h
    · rcases List.mem_append.mp h with h | h
      · exact (hXch c h).2.2.1
      · rcases List.mem_append.mp h with h | h
        · exact hMnl c h
        · exact (hYch c h).2.2.1
  have hstrip : stripBold (ofString "Risks/Opportunities: " ++ (X ++ (ofString ", " ++ Y)))
      = ofString "Risks/Opportunities: " ++ (X ++ (ofString ", " ++ Y)) := by
    apply stripBold_eq_self
    intro c hc
    rcases List.mem_append.mp hc with h | h
    · exact (by decide : ∀ c ∈ ofString "Risks/Opportunities: ", c ≠ '*') c h
    · rcases List.mem_append.mp h with h | h
      · exact (hXch c h).2.2.2
      · rcases List.mem_append.mp h with h | h
        · exact (by decide : ∀ c ∈ ofString ", ", c ≠ '*') c h
        · exact (hYch c h).2.2.2
  have htrimL : trim (ofString "Risks/Opportunities: " ++ (X ++ (ofString ", " ++ Y)))
      = ofString "Risks/Opportunities: " ++ (X ++ (ofString ", " ++ Y)) := by
    apply trim_eq_self
    · rw [show ofString "Risks/Opportunities: "
        = 'R' :: ofString "isks/Opportunities: " from rfl, List.cons_append]
      exact trimLeft_cons_not_ws 'R' _ (by decide)
    · have hrev : (ofString "Risks/Opportunities: " ++ (X ++ (ofString ", " ++ Y))).reverse
          = cy :: (ty ++ ((ofString ", ").reverse
              ++ (X.reverse ++ (ofString "Risks/Opportunities: ").reverse))) := by
        simp [List.reverse_append, hYr]
      rw [hrev]
      exact trimLeft_cons_not_ws cy _ hcy
  have hclean : trim (stripBold (ofString "Risks/Opportunities: " ++ (X ++ (ofString ", " ++ Y))))
      = ofString "Risks/Opportunities: " ++ (X ++ (ofString ", " ++ Y)) := by
    rw [hstrip]
    exact htrimL
  have h5 : includes (toLower (ofString "Risks/Opportunities: " ++ (X ++ (ofString ", " ++ Y))))
      (ofString "risks/opportunities") = true := by
    have hlow : toLower (ofString "Risks/Opportunities: " ++ (X ++ (ofString ", " ++ Y)))
        = ofString "risks/opportunities"
          ++ (ofString ": " ++ toLower (X ++ (ofString ", " ++ Y))) := by
      simp only [toLower, List.map_append]
      rw [show List.map toLowerChar (ofString "Risks/Opportunities: ")
          = ofString "risks/opportunities" ++ ofString ": " from by decide]
      simp [List.append_assoc, List.map_append]
    rw [hlow]
    exact includes_of_startsWith _ _ (startsWith_append _ _)
  have hbodyColon : ∀ c ∈ ' ' :: (X ++ (ofString ", " ++ Y)), c ≠ ':' := by
    intro c hc
    rcases List.mem_cons.mp hc with h | h
    · rw [h]; decide
    · rcases List.mem_append.mp h with h | h
      · exact (hXch c h).1
      · rcases List.mem_append.mp h with h | h
        · exact (by decide : ∀ c ∈ ofString ", ", c ≠ ':') c h
        · exact (hYch c h).1
  have hsplitColon : splitOnChar ':' (ofString "Risks/Opportunities: " ++ (X ++ (ofString ", " ++ Y)))
      = [ofString "Risks/Opportunities", ' ' :: (X ++ (ofString ", " ++ Y))] := by
    rw [show ofString "Risks/Opportunities: " ++ (X ++ (ofString ", " ++ Y))
        = ofString "Risks/Opportunities" ++ (':' :: (' ' :: (X ++ (ofString ", " ++ Y))))
      from by
        rw [show ofString "Risks/Opportunities: "
          = ofString "Risks/Opportunities" ++ (':' :: [' ']) from rfl]
        simp]
    rw [splitOnChar_append_cons ':' _ _
      (by decide : ∀ c ∈ ofString "Risks/Opportunities", c ≠ ':')]
    rw [splitOnChar_eq_single ':' _ hbodyColon]
  have hXcomma : ∀ c ∈ ' ' :: X, c ≠ ',' := by
    intro c hc
    rcases List.mem_cons.mp hc with h | h
    · rw [h]; decide
    · exact (hXch c h).2.1
  have hYcomma : ∀ c ∈ ' ' :: Y, c ≠ ',' := by
    intro c hc
    rcases List.mem_cons.mp hc with h | h
    · rw [h]; decide
    · exact (hYch c h).2.1
  have hsplitComma : splitOnChar ',' (' ' :: (X ++ (ofString ", " ++ Y)))
      = [' ' :: X, ' ' :: Y] := by
    rw [show ' ' :: (X ++ (ofString ", " ++ Y)) = (' ' :: X) ++ (',' :: (' ' :: Y)) from by
      rw [show ofString ", " = ',' :: [' '] from rfl]
      simp]
    rw [splitOnChar_append_cons ',' _ _ hXcomma,
      splitOnChar_eq_single ',' _ hYcomma]
  have htok2 : trim ((splitOnChar ','
      ((splitOnChar ':' (ofString "Risks/Opportunities: " ++ (X ++ (ofString ", " ++ Y)))).getD 1 [])).getD 1 [])
      = Y := by
    rw [hsplitColon]
    simp only [List.getD_cons_zero, List.getD_cons_succ]
    rw [hsplitComma]
    simp only [List.getD_cons_zero, List.getD_cons_succ]
    exact trim_space_cons Y hY1 hY2
  obtain ⟨hcur1, hrisks1, hopps1, htech1, hfund1, hsent1⟩ :=
    processCleanLine_riskOpp initState
      (ofString "Risks/Opportunities: " ++ (X ++ (ofString ", " ++ Y))) h1 h2 h3 h4 h5
  rw [htok2, if_neg hYne] at hopps1
  have hshape : ofString "Risks/Opportunities: " ++ (X ++ (ofString ", " ++ (Y ++ (ofString "\n" ++ suf))))
      = (ofString "Risks/Opportunities: " ++ (X ++ (ofString ", " ++ Y))) ++ '\n' :: suf := by
    rw [show ofString "\n" = ['\n'] from rfl]
    simp [List.append_assoc]
  have hlines : splitOnChar '\n'
      (ofString "Risks/Opportunities: " ++ (X ++ (ofString ", " ++ (Y ++ (ofString "\n" ++ suf)))))
      = (ofString "Risks/Opportunities: " ++ (X ++ (ofString ", " ++ Y)))
          :: splitOnChar '\n' suf := by
    rw [hshape]
    exact splitOnChar_append_cons '\n' _ _ hLnl
  have hYscan : Y ∈ ((splitOnChar '\n'
      (ofString "Risks/Opportunities: " ++ (X ++ (ofString ", " ++ (Y ++ (ofString "\n" ++ suf)))))).foldl
        processLine initState).secs.get Category.opportunities := by
    rw [hlines, List.foldl_cons]
    refine (foldl_processLine_get_mono _ _ _).subset ?_
    show Y ∈ (processCleanLine initState
      (trim (stripBold (ofString "Risks/Opportunities: " ++ (X ++ (ofString ", " ++ Y)))))).secs.get
        Category.opportunities
    rw [hclean]
    show Y ∈ (processCleanLine initState
      (ofString "Risks/Opportunities: " ++ (X ++ (ofString ", " ++ Y)))).secs.opportunities
    rw [hopps1]
    simp [initState, initSections]
  have hreport6 : ofString "Risks/Opportunities: " ++ (X ++ (ofString ", " ++ (Y ++ (ofString "\n" ++ suf))))
      = 'R' :: 'i' :: 's' :: 'k' :: 's' :: '/' ::
        (ofString "Opportunities: " ++ (X ++ (ofString ", " ++ (Y ++ ('\n' :: suf))))) := by
    rw [show ofString "Risks/Opportunities: "
      = 'R' :: 'i' :: 's' :: 'k' :: 's' :: '/' :: ofString "Opportunities: " from rfl,
      show ofString "\n" = ['\n'] from rfl]
    simp [List.append_assoc]
  have hsw : startsWith (ofString "Opportunities: " ++ (X ++ (ofString ", " ++ (Y ++ ('\n' :: suf)))))
      ('O' :: ofString "pportunities:") = true := by
    rw [show ('O' : Char) :: ofString "pportunities:" = ofString "Opportunities:" from rfl,
      show ofString "Opportunities: " = ofString "Opportunities:" ++ [' '] from rfl,
      List.append_assoc]
    exact startsWith_append _ _
  have hidx : indexOfAux
      (ofString "Risks/Opportunities: " ++ (X ++ (ofString ", " ++ (Y ++ (ofString "\n" ++ suf)))))
      (ofString "Opportunities:") = some 6 := by
    rw [hreport6]
    rw [show ofString "Opportunities:" = 'O' :: ofString "pportunities:" from rfl]
    rw [indexOfAux_cons_shift _ _ _ _ (by decide)]
    rw [indexOfAux_cons_shift _ _ _ _ (by decide)]
    rw [indexOfAux_cons_shift _ _ _ _ (by decide)]
    rw [indexOfAux_cons_shift _ _ _ _ (by decide)]
    rw [indexOfAux_cons_shift _ _ _ _ (by decide)]
    rw [indexOfAux_cons_shift _ _ _ _ (by decide)]
    rw [indexOfAux_startsWith _ _ (by decide) hsw]
    rfl
  have hAnl : ∀ c ∈ ofString "Opportunities: " ++ (X ++ (ofString ", " ++ Y)), c ≠ '\n' := by
    intro c hc
    rcases List.mem_append.mp hc with h | h
    · exact (by decide : ∀ c ∈ ofString "Opportunities: ", c ≠ '\n') c h
    · rcases List.mem_append.mp h with h | h
      · exact (hXch c h).2.2.1
      · rcases List.mem_append.mp h with h | h
        · exact hMnl c h
        · exact (hYch c h).2.2.1
  have hdrop6 : (ofString "Risks/Opportunities: " ++ (X ++ (ofString ", " ++ (Y ++ (ofString "\n" ++ suf))))).drop 6
      = (ofString "Opportunities: " ++ (X ++ (ofString ", " ++ Y))) ++ '\n' :: suf := by
    rw [hreport6]
    show ofString "Opportunities: " ++ (X ++ (ofString ", " ++ (Y ++ ('\n' :: suf)))) = _
    simp [List.append_assoc]
  have hend : indexOfFrom
      (ofString "Risks/Opportunities: " ++ (X ++ (ofString ", " ++ (Y ++ (ofString "\n" ++ suf)))))
      (ofString "\n") 6
      = some ((ofString "Opportunities: " ++ (X ++ (ofString ", " ++ Y))).length + 6) := by
    unfold indexOfFrom
    rw [hdrop6, show ofString "\n" = ['\n'] from rfl,
      indexOfAux_single_append _ '\n' _ hAnl]
    rfl
  have hlen20 : (ofString "Opportunities: " ++ (X ++ (ofString ", " ++ Y))).length + 6
      = (ofString "Risks/Opportunities: " ++ (X ++ (ofString ", " ++ Y))).length := by
    simp only [List.length_append]
    rw [show (ofString "Opportunities: ").length = 15 from rfl,
      show (ofString "Risks/Opportunities: ").length = 21 from rfl]
    omega
  have hslice : slice
      (ofString "Risks/Opportunities: " ++ (X ++ (ofString ", " ++ (Y ++ (ofString "\n" ++ suf)))))
      (6 + 14) ((ofString "Opportunities: " ++ (X ++ (ofString ", " ++ Y))).length + 6)
      = ' ' :: (X ++ (ofString ", " ++ Y)) := by
    unfold slice
    rw [hshape, hlen20, List.take_left]
    rw [show (6 : Nat) + 14 = 20 from rfl]
    rw [show ofString "Risks/Opportunities: " ++ (X ++ (ofString ", " ++ Y))
        = ofString "Risks/Opportunities:" ++ (' ' :: (X ++ (ofString ", " ++ Y))) from by
      rw [show ofString "Risks/Opportunities: "
        = ofString "Risks/Opportunities:" ++ [' '] from rfl]
      simp]
    exact List.drop_left' rfl
  have hbody1 : trimLeft (X ++ (ofString ", " ++ Y)) = X ++ (ofString ", " ++ Y) := by
    rw [hXc, List.cons_append]
    exact trimLeft_cons_not_ws cx _ hcx
  have hbody2 : trimLeft (X ++ (ofString ", " ++ Y)).reverse
      = (X ++ (ofString ", " ++ Y)).reverse := by
    have hrev : (X ++ (ofString ", " ++ Y)).reverse
        = cy :: (ty ++ ((ofString ", ").reverse ++ X.reverse)) := by
      simp [List.reverse_append, hYr]
    rw [hrev]
    exact trimLeft_cons_not_ws cy _ hcy
  have htrimBody : trim (' ' :: (X ++ (ofString ", " ++ Y))) = X ++ (ofString ", " ++ Y) :=
    trim_space_cons _ hbody1 hbody2
  have hbodyne : X ++ (ofString ", " ++ Y) ≠ [] := by
    rw [hXc]
    simp
  have haddOpp : ∀ S : Sections,
      addOpportunitiesParagraph
        (ofString "Risks/Opportunities: " ++ (X ++ (ofString ", " ++ (Y ++ (ofString "\n" ++ suf))))) S
      = S.app Category.opportunities (X ++ (ofString ", " ++ Y)) := by
    intro S
    unfold addOpportunitiesParagraph
    split
    · rw [hidx]
      dsimp only
      rw [hend]
      dsimp only
      rw [hslice, htrimBody, if_neg hbodyne]
    · rename_i h'
      exact absurd (indexOfAux_includes _ _ _ hidx) h'
  have hget : ∀ S : Sections,
      (addOpportunitiesParagraph
        (ofString "Risks/Opportunities: " ++ (X ++ (ofString ", " ++ (Y ++ (ofString "\n" ++ suf))))) S).get
          Category.opportunities
        = S.get Category.opportunities ++ [X ++ (ofString ", " ++ Y)] := by
    intro S
    rw [haddOpp S, Sections.get_app]
    simp
  have hYfin : Y ∈ (addOpportunitiesParagraph
      (ofString "Risks/Opportunities: " ++ (X ++ (ofString ", " ++ (Y ++ (ofString "\n" ++ suf)))))
      (addRisksParagraph
        (ofString "Risks/Opportunities: " ++ (X ++ (ofString ", " ++ (Y ++ (ofString "\n" ++ suf)))))
        (addActionableSummary
          (ofString "Risks/Opportunities: " ++ (X ++ (ofString ", " ++ (Y ++ (ofString "\n" ++ suf)))))
          ((splitOnChar '\n'
            (ofString "Risks/Opportunities: " ++ (X ++ (ofString ", " ++ (Y ++ (ofString "\n" ++ suf)))))).foldl
              processLine initState).secs))).get Category.opportunities := by
    rw [hget, addRisksParagraph_get_ne _ _ _ (by decide),
      addActionableSummary_get_ne _ _ _ (by decide)]
    exact List.mem_append_left _ hYscan
  have hEfin : (X ++ (ofString ", " ++ Y)) ∈ (addOpportunitiesParagraph
      (ofString "Risks/Opportunities: " ++ (X ++ (ofString ", " ++ (Y ++ (ofString "\n" ++ suf)))))
      (addRisksParagraph
        (ofString "Risks/Opportunities: " ++ (X ++ (ofString ", " ++ (Y ++ (ofString "\n" ++ suf)))))
        (addActionableSummary
          (ofString "Risks/Opportunities: " ++ (X ++ (ofString ", " ++ (Y ++ (ofString "\n" ++ suf)))))
          ((splitOnChar '\n'
            (ofString "Risks/Opportunities: " ++ (X ++ (ofString ", " ++ (Y ++ (ofString "\n" ++ suf)))))).foldl
              processLine initState).secs))).get Category.opportunities := by
    rw [hget]
    exact List.mem_append_right _ (by simp)
  have hne2 : (addOpportunitiesParagraph
      (ofString "Risks/Opportunities: " ++ (X ++ (ofString ", " ++ (Y ++ (ofString "\n" ++ suf)))))
      (addRisksParagraph
        (ofString "Risks/Opportunities: " ++ (X ++ (ofString ", " ++ (Y ++ (ofString "\n" ++ suf)))))
        (addActionableSummary
          (ofString "Risks/Opportunities: " ++ (X ++ (ofString ", " ++ (Y ++ (ofString "\n" ++ suf)))))
          ((splitOnChar '\n'
            (ofString "Risks/Opportunities: " ++ (X ++ (ofString ", " ++ (Y ++ (ofString "\n" ++ suf)))))).foldl
              processLine initState).secs))).get Category.opportunities ≠ [] := by
    intro h
    rw [h] at hYfin
    exact absurd hYfin (by simp)
  obtain ⟨sec, hsec, hcat, hcont⟩ := buildSections_mem _ _ hne2
  have hrepne : ofString "Risks/Opportunities: " ++ (X ++ (ofString ", " ++ (Y ++ (ofString "\n" ++ suf))))
      ≠ [] := by
    rw [hreport6]
    simp
  refine ⟨sec, ?_, hcat, ?_, ?_⟩
  · unfold parseFullReport
    rw [if_neg hrepne]
    exact hsec
  · rw [hcont]
    exact hYfin
  · rw [hcont]
    exact hEfin

theorem opportunities_overlap_witness :
    ∃ s ∈ parseFullReport
      (ofString "Risks/Opportunities: " ++ (ofString "X" ++ (ofString ", "
        ++ (ofString "Y" ++ (ofString "\n" ++ ofString "tail"))))),
      s.category = Category.opportunities
      ∧ ofString "Y" ∈ s.content
      ∧ (ofString "X" ++ (ofString ", " ++ ofString "Y")) ∈ s.content :=
  opportunities_overlap (ofString "X") (ofString "Y") (ofString "tail")
    (by decide) (by decide) (by decide) (by decide) (by decide) (by decide)
    (by decide) (by decide) (by decide) (by decide) (by decide) (by decide)

end StockMe
